import Mathlib

set_option maxRecDepth 8192
set_option maxHeartbeats 1000000

/- Shallow embedding of the rename core of the PNG sequence renamer
   (src/png_sequence_renamer_gui_v1.0.0.py): name sequencing (`plan_renames`),
   collision detection (`detect_collisions`), two-phase execution
   (`two_phase_rename`), the CSV ledger (`write_log`) and undo
   (`undo_from_log`), together with the natural-sort listing order.

   Paths are modelled as plain strings (POSIX-style, `folder ++ "/" ++ name`),
   the filesystem as an association list from path to a file identity, and an
   OS rename as the primitive that moves a binding (overwriting the
   destination, failing when the source is absent).  I/O exceptions are
   modelled by a fault oracle indexed by an operation counter, so that
   "execution is forced to fail after staging N files" is expressible. -/

/-- Python `folder / name` for POSIX-style paths. -/
def pathJoin (folder name : String) : String := folder ++ "/" ++ name

/-- Python `Path.name`: the final component of a path. -/
def baseName (p : String) : String := ⟨(p.data.reverse.takeWhile (fun c => c != '/')).reverse⟩

/-- ASCII whitespace recognised by Python's `str.strip()`. -/
def isPySpace (c : Char) : Bool :=
  c == ' ' || c == '\t' || c == '\n' || c == '\r' || c == '\x0b' || c == '\x0c'

/-- Python `str.strip()` (ASCII whitespace). -/
def pyStrip (s : String) : String :=
  ⟨((s.data.dropWhile isPySpace).reverse.dropWhile isPySpace).reverse⟩

/-- Python `str.split(sep, maxsplit)` for a single-character separator,
    restricted to the nonempty-separator case used by the program. -/
def pySplitGo (sep : Char) : Nat → List Char → List (List Char)
  | 0, l => [l]
  | n + 1, l =>
      match l.dropWhile (fun c => c != sep) with
      | [] => [l]
      | _ :: rest => l.takeWhile (fun c => c != sep) :: pySplitGo sep n rest

/-- Python `s.split(sep, maxsplit)`. -/
def pySplit (sep : Char) (maxsplit : Nat) (s : String) : List String :=
  (pySplitGo sep maxsplit s.data).map (fun l => ⟨l⟩)

/-- The staging name `f"temp_{timestamp}_{old_name}"` built in phase 1;
    `ts` is the formatted `datetime.now().strftime('%Y%m%d_%H%M%S_%f')` string. -/
def tempNameOf (ts name : String) : String := "temp_" ++ ts ++ "_" ++ name

/-- The program's reconstruction of an original filename from a staging name:
    `temp_path.name.split('_', 3)[-1] if '_' in temp_path.name else temp_path.name`. -/
def recoverOriginalName (n : String) : String :=
  if '_' ∈ n.data then (pySplit '_' 3 n).getLastD n else n

/-- The character of a decimal digit. -/
def decChar (d : Nat) : Char := Char.ofNat (48 + d)

/-- Big-endian decimal digit characters of `n`, with explicit fuel so that the
    kernel can evaluate the function. -/
def natStrGo : Nat → Nat → List Char
  | 0, _ => []
  | fuel + 1, n => if n < 10 then [decChar n] else natStrGo fuel (n / 10) ++ [decChar (n % 10)]

/-- Python `str` on a nonnegative integer. -/
def natStr (n : Nat) : String := ⟨natStrGo (n + 1) n⟩

/-- Python `str` on an integer. -/
def intStr (i : Int) : String := if i < 0 then "-" ++ natStr i.natAbs else natStr i.natAbs

/-- Python `str.zfill(w)`: left-pad with `'0'` to width `w`, keeping a leading
    sign character in front of the padding. -/
def zfill (s : String) (w : Int) : String :=
  match s.data with
  | [] => ⟨List.replicate ((w - (s.length : Int)).toNat) '0'⟩
  | c :: rest =>
      if c = '-' ∨ c = '+' then ⟨c :: (List.replicate ((w - (s.length : Int)).toNat) '0' ++ rest)⟩
      else ⟨List.replicate ((w - (s.length : Int)).toNat) '0' ++ (c :: rest)⟩

/-- Decimal value of a digit string (evaluation inverse of `natStrGo`). -/
def parseNat (l : List Char) : Nat := l.foldl (fun acc c => 10 * acc + (c.toNat - 48)) 0

/-- Drop leading zeros of a numeral, keeping a single `'0'` for the zero numeral. -/
def dlz (l : List Char) : List Char :=
  match l.dropWhile (fun c => c == '0') with
  | [] => ['0']
  | r => r

/-- Number of decimal digits of a natural number (`len(str(n))`). -/
def numDigits (n : Nat) : Nat := (natStr n).length

/-- The target filename `f"{prefix}{basename}_{index_str}{suffix}.png"` for one
    index (`pre`/`suf` are the prefix and suffix parameters). -/
def mkTarget (pre bn suf : String) (zp idx : Int) : String :=
  pre ++ bn ++ "_" ++ zfill (intStr idx) zp ++ suf ++ ".png"

/-- The enumeration loop of `plan_renames`: one `(old_path, new_name)` pair per
    file, with the running index starting at `start_index`. -/
def planLoop (pre bn suf : String) (zp : Int) : Int → List String → List (String × String)
  | _, [] => []
  | idx, old :: rest => (old, mkTarget pre bn suf zp idx) :: planLoop pre bn suf zp (idx + 1) rest

/-- `plan_renames(png_files, basename, start_index, zero_padding, prefix, suffix)`.
    `none` models the `ValueError("Basename is required")` raise. -/
def plan_renames (png_files : List String) (basename : String)
    (start_index zero_padding : Int) (pre suf : String) : Option (List (String × String)) :=
  if pyStrip basename = "" then none
  else if png_files.isEmpty then some []
  else
    let zp := if zero_padding = 0
      then (((intStr (start_index + (png_files.length : Int) - 1)).length : Nat) : Int)
      else zero_padding
    some (planLoop pre basename suf zp start_index png_files)

/-- Split a character list into alternating non-digit and digit runs, as
    `re.split(r'(\d+)', text)` does (capture group kept, possibly empty
    non-digit pieces at the ends).  Fuel keeps the recursion structural. -/
def splitRunsGo : Nat → List Char → List (List Char)
  | 0, l => [l]
  | fuel + 1, l =>
      match l.dropWhile (fun c => !c.isDigit) with
      | [] => [l.takeWhile (fun c => !c.isDigit)]
      | c :: rest =>
          l.takeWhile (fun c => !c.isDigit) ::
            ((c :: rest).takeWhile Char.isDigit) ::
            splitRunsGo fuel ((c :: rest).dropWhile Char.isDigit)

/-- `re.split(r'(\d+)', text)` on the characters of `text`. -/
def splitDigitRuns (l : List Char) : List (List Char) := splitRunsGo (l.length + 1) l

/-- One chunk of a natural-sort key: a lower-cased string piece or a numeric piece. -/
inductive KeyPart where
  | str (s : String)
  | num (n : Nat)
  deriving DecidableEq, Repr

/-- `natural_sort_key(text)`: `[int(t) if t.isdigit() else t.lower() for t in
    re.split(r'(\d+)', str(text))]`. -/
def natural_sort_key (text : String) : List KeyPart :=
  (splitDigitRuns text.data).map fun t =>
    if t.all Char.isDigit && !t.isEmpty then KeyPart.num (parseNat t)
    else KeyPart.str ⟨t.map Char.toLower⟩

/-- Lexicographic (code-point) comparison of character lists: Python `<` on
    strings. -/
def charListLt : List Char → List Char → Bool
  | [], [] => false
  | [], _ :: _ => true
  | _ :: _, [] => false
  | a :: as, b :: bs => if a < b then true else if b < a then false else charListLt as bs

/-- Python `<` on strings. -/
def strLt (a b : String) : Bool := charListLt a.data b.data

/-- Python `<` on the elements of a sort key.  Keys built by
    `natural_sort_key` only ever compare string pieces with string pieces and
    numeric pieces with numeric pieces (pieces alternate, starting with a
    string piece), so the mixed cases below are never reached; Python would
    raise `TypeError` there. -/
def partLt : KeyPart → KeyPart → Bool
  | KeyPart.num a, KeyPart.num b => decide (a < b)
  | KeyPart.str a, KeyPart.str b => strLt a b
  | KeyPart.num _, KeyPart.str _ => true
  | KeyPart.str _, KeyPart.num _ => false

/-- Python `<` on sort keys: lexicographic list comparison. -/
def keyLt : List KeyPart → List KeyPart → Bool
  | [], [] => false
  | [], _ :: _ => true
  | _ :: _, [] => false
  | a :: as, b :: bs => if partLt a b then true else if partLt b a then false else keyLt as bs

/-- Stable insertion into a list already sorted by the natural key. -/
def insertByKey (x : String) : List String → List String
  | [] => [x]
  | y :: ys =>
      if keyLt (natural_sort_key (baseName y)) (natural_sort_key (baseName x)) then
        y :: insertByKey x ys
      else x :: y :: ys

/-- `png_files.sort(key=lambda x: natural_sort_key(x.name))`: the Name-mode
    ordering of `get_png_files`, modelled by a stable ascending sort. -/
def sortByName : List String → List String
  | [] => []
  | x :: xs => insertByKey x (sortByName xs)

/-- Fault oracle: `faults n = true` makes the `n`-th OS call of a run raise. -/
structure FaultConfig where
  faults : Nat → Bool

/-- The fault-free oracle (no I/O errors). -/
def cfgPure : FaultConfig := ⟨fun _ => false⟩

/-- Filesystem and operation counter.  The filesystem maps each existing path
    to a file identity. -/
structure World where
  fs : List (String × Nat)
  clock : Nat
  deriving DecidableEq, Repr

/-- Look up the file at a path. -/
def fsLookup : List (String × Nat) → String → Option Nat
  | [], _ => none
  | (q, v) :: rest, p => if q = p then some v else fsLookup rest p

/-- Remove the binding of a path. -/
def fsErase : List (String × Nat) → String → List (String × Nat)
  | [], _ => []
  | (q, v) :: rest, p => if q = p then fsErase rest p else (q, v) :: fsErase rest p

/-- Bind a path to a file, replacing any previous binding. -/
def fsSet (fs : List (String × Nat)) (p : String) (v : Nat) : List (String × Nat) :=
  (p, v) :: fsErase fs p

/-- Path existence test. -/
def fsExists (fs : List (String × Nat)) (p : String) : Bool := (fsLookup fs p).isSome

/-- One `Path.rename(src, dst)` call: advances the operation counter; fails
    (returns `none`) on an injected fault or a missing source; otherwise moves
    the binding, overwriting `dst`, and reports whether an existing file other
    than the source itself was overwritten. -/
def osRename (cfg : FaultConfig) (w : World) (src dst : String) : World × Option Bool :=
  if cfg.faults w.clock then ({ fs := w.fs, clock := w.clock + 1 }, none)
  else
    match fsLookup w.fs src with
    | none => ({ fs := w.fs, clock := w.clock + 1 }, none)
    | some v =>
        ({ fs := fsSet (fsErase w.fs src) dst v, clock := w.clock + 1 },
          some (fsExists w.fs dst && src != dst))

/-- The collision message `f"Duplicate target name: {new_name}"`. -/
def dupMsg (n : String) : String := "Duplicate target name: " ++ n

/-- The collision message `f"Would overwrite existing file: {new_name}"`. -/
def overwriteMsg (n : String) : String := "Would overwrite existing file: " ++ n

/-- The loop of `detect_collisions`, carrying the `new_names` seen-set. -/
def detectLoop (folder : String) (fs : List (String × Nat)) :
    List (String × String) → List String → List String
  | [], _ => []
  | (old, new) :: rest, seen =>
      ((if new ∈ seen then [dupMsg new] else []) ++
        (if fsExists fs (pathJoin folder new) = true ∧ pathJoin folder new ≠ old
          then [overwriteMsg new] else [])) ++
      detectLoop folder fs rest (new :: seen)

/-- `detect_collisions(renames, folder_path)`, reading the directory state `fs`. -/
def detect_collisions (renames : List (String × String)) (folder : String)
    (fs : List (String × Nat)) : List String :=
  detectLoop folder fs renames []

/-- The collision messages one plan entry contributes, given the set of target
    names seen at earlier entries. -/
def entryCollisions (folder : String) (fs : List (String × Nat)) (seen : List String)
    (e : String × String) : List String :=
  (if e.2 ∈ seen then [dupMsg e.2] else []) ++
    (if fsExists fs (pathJoin folder e.2) = true ∧ pathJoin folder e.2 ≠ e.1
      then [overwriteMsg e.2] else [])

/-- Specification form of the detector: each entry contributes its collisions
    in plan order, seeing exactly the target names of the entries before it. -/
def detectSpecGo (folder : String) (fs : List (String × Nat)) :
    List String → List (String × String) → List String
  | _, [] => []
  | pre, e :: rest => entryCollisions folder fs pre e ++ detectSpecGo folder fs (pre ++ [e.2]) rest

/-- `detectSpecGo` started with no previously seen targets. -/
def detectSpec (folder : String) (fs : List (String × Nat))
    (renames : List (String × String)) : List String :=
  detectSpecGo folder fs [] renames

/-- Result of the staging loop: the world plus the `temp_names` list, with
    `fail` marking a raised exception (caught by the rollback handler). -/
inductive StageResult where
  | ok (w : World) (temps : List (String × String))
  | fail (w : World) (temps : List (String × String))
  deriving DecidableEq, Repr

/-- Phase 1 of `two_phase_rename`: rename every entry whose current name
    differs from its target to `temp_{ts}_{name}`, accumulating `temp_names`. -/
def stagePhase (cfg : FaultConfig) (folder ts : String) :
    World → List (String × String) → List (String × String) → StageResult
  | w, [], temps => StageResult.ok w temps
  | w, (old, new) :: rest, temps =>
      if baseName old != new then
        match osRename cfg w old (pathJoin folder (tempNameOf ts (baseName old))) with
        | (w', some _) =>
            stagePhase cfg folder ts w' rest
              (temps ++ [(pathJoin folder (tempNameOf ts (baseName old)), new)])
        | (w', none) => StageResult.fail w' temps
      else stagePhase cfg folder ts w rest temps

/-- Result of the commit loop: the world, the `final_renames` list and, for the
    model, the overwrite report of each commit rename. -/
inductive CommitResult where
  | ok (w : World) (finals : List (String × String)) (flags : List Bool)
  | fail (w : World)
  deriving DecidableEq, Repr

/-- Phase 2 of `two_phase_rename`: rename each staged temporary to its final
    name and record `(original_path, final_path)`, where the original name is
    reconstructed from the temporary name by `recoverOriginalName`. -/
def commitPhase (cfg : FaultConfig) (folder : String) :
    World → List (String × String) → List (String × String) → List Bool → CommitResult
  | w, [], finals, flags => CommitResult.ok w finals flags
  | w, (tempPath, new) :: rest, finals, flags =>
      match osRename cfg w tempPath (pathJoin folder new) with
      | (w', some ov) =>
          commitPhase cfg folder w' rest
            (finals ++ [(pathJoin folder (recoverOriginalName (baseName tempPath)),
              pathJoin folder new)])
            (flags ++ [ov])
      | (w', none) => CommitResult.fail w'

/-- The `except` handler of `two_phase_rename`: rename every still-existing
    temporary back to the reconstructed original name, swallowing individual
    failures. -/
def rollbackPhase (cfg : FaultConfig) (folder : String) :
    World → List (String × String) → World
  | w, [] => w
  | w, (tempPath, _) :: rest =>
      if fsExists w.fs tempPath then
        rollbackPhase cfg folder
          (osRename cfg w tempPath
            (pathJoin folder (recoverOriginalName (baseName tempPath)))).1 rest
      else rollbackPhase cfg folder w rest

/-- `two_phase_rename(renames, folder_path)`: stage, then commit; on a raise in
    either phase, roll back the staged renames and propagate the failure
    (`none`). -/
def two_phase_rename (cfg : FaultConfig) (folder ts : String)
    (renames : List (String × String)) (w : World) :
    World × Option (List (String × String)) :=
  match stagePhase cfg folder ts w renames [] with
  | StageResult.fail w₁ temps => (rollbackPhase cfg folder w₁ temps, none)
  | StageResult.ok w₁ temps =>
      match commitPhase cfg folder w₁ temps [] [] with
      | CommitResult.ok w₂ finals _ => (w₂, some finals)
      | CommitResult.fail w₂ => (rollbackPhase cfg folder w₂ temps, none)

/-- The entries of a plan that phase 1 actually stages (current name differs
    from the target name). -/
def stagedEntries (renames : List (String × String)) : List (String × String) :=
  renames.filter (fun e => baseName e.1 != e.2)

/-- The temporary path phase 1 gives to an entry. -/
def tempPathOf (folder ts : String) (e : String × String) : String :=
  pathJoin folder (tempNameOf ts (baseName e.1))

/-- The `temp_names` list produced by a successful staging phase. -/
def stagedTemps (folder ts : String) (renames : List (String × String)) :
    List (String × String) :=
  (stagedEntries renames).map (fun e => (tempPathOf folder ts e, e.2))

/-- One CSV ledger row: `(old_path, new_path, timestamp)`. -/
abbrev LogRow := String × String × String

/-- `write_log(renames, log_file_path)`: the rows of the ledger file, one per
    completed rename, all stamped with one timestamp. -/
def write_log (renames : List (String × String)) (ts : String) : List LogRow :=
  renames.map (fun e => (e.1, e.2, ts))

/-- The row loop of `undo_from_log`: for each row in file order, if the final
    path exists, rename it back and record `(new_path, old_path)`; a failed
    rename raises (`Except.error` with the partial world). -/
def undoGo (cfg : FaultConfig) (w : World) :
    List LogRow → Except World (World × List (String × String))
  | [] => Except.ok (w, [])
  | (old, new, _) :: rest =>
      if fsExists w.fs new then
        match osRename cfg w new old with
        | (w', some _) =>
            match undoGo cfg w' rest with
            | Except.ok (w'', l) => Except.ok (w'', (new, old) :: l)
            | Except.error w'' => Except.error w''
        | (w', none) => Except.error w'
      else undoGo cfg w rest

/-- `undo_from_log(log_file_path)`: `none` ledger models a missing file
    (`FileNotFoundError`).  Returns the final world, the ledger file state
    afterwards (deleted only on success), and the `undone` list (`none` models
    the wrapped exception). -/
def undo_from_log (cfg : FaultConfig) (w : World) (ledger : Option (List LogRow)) :
    World × Option (List LogRow) × Option (List (String × String)) :=
  match ledger with
  | none => (w, none, none)
  | some rows =>
      match undoGo cfg w rows with
      | Except.error w' => (w', some rows, none)
      | Except.ok (w', undone) => (w', none, some undone)

/-- Specification relation for one undo pass: rows are processed in file
    order; a row whose final path is missing is skipped and excluded from the
    result; a row whose final path exists is renamed back and recorded. -/
inductive UndoTrace :
    List (String × Nat) → List LogRow → List (String × String) → List (String × Nat) → Prop
  | nil (fs : List (String × Nat)) : UndoTrace fs [] [] fs
  | skip {fs fs' : List (String × Nat)} {rest : List LogRow} {l : List (String × String)}
      (old new ts : String) :
      fsExists fs new = false → UndoTrace fs rest l fs' →
      UndoTrace fs ((old, new, ts) :: rest) l fs'
  | step {fs fs' : List (String × Nat)} {rest : List LogRow} {l : List (String × String)}
      (old new ts : String) (v : Nat) :
      fsLookup fs new = some v →
      UndoTrace (fsSet (fsErase fs new) old v) rest l fs' →
      UndoTrace fs ((old, new, ts) :: rest) ((new, old) :: l) fs'

/- Basic facts about the numeral and string helpers. -/

theorem parseNat_append_singleton (l : List Char) (c : Char) :
    parseNat (l ++ [c]) = 10 * parseNat l + (c.toNat - 48) := by
  simp [parseNat, List.foldl_append]

theorem decChar_toNat : ∀ d : Nat, d < 10 → (decChar d).toNat = 48 + d := by decide

theorem parseNat_natStrGo : ∀ fuel n, n < fuel → parseNat (natStrGo fuel n) = n := by
  intro fuel
  induction fuel with
  | zero => intro n h; omega
  | succ f ih =>
      intro n h
      by_cases h10 : n < 10
      · rw [natStrGo, if_pos h10]
        have hd := decChar_toNat n h10
        simp [parseNat, hd]
      · have h1 : n / 10 < f := by
          have h2 : n / 10 < n := Nat.div_lt_self (by omega) (by norm_num)
          omega
        rw [natStrGo, if_neg h10, parseNat_append_singleton, ih _ h1,
          decChar_toNat (n % 10) (Nat.mod_lt _ (by norm_num))]
        omega

theorem natStr_inj {a b : Nat} (h : natStr a = natStr b) : a = b := by
  have hd : natStrGo (a + 1) a = natStrGo (b + 1) b := congrArg String.data h
  have ha := parseNat_natStrGo (a + 1) a (by omega)
  rw [hd, parseNat_natStrGo (b + 1) b (by omega)] at ha
  omega

theorem natStrGo_ne_nil (f n : Nat) : natStrGo (f + 1) n ≠ [] := by
  rw [natStrGo]
  split <;> simp

theorem natStrGo_mem : ∀ fuel n c, c ∈ natStrGo fuel n → ∃ d, d < 10 ∧ c = decChar d := by
  intro fuel
  induction fuel with
  | zero => intro n c h; simp [natStrGo] at h
  | succ f ih =>
      intro n c h
      rw [natStrGo] at h
      by_cases h10 : n < 10
      · rw [if_pos h10] at h
        simp at h
        exact ⟨n, h10, h⟩
      · rw [if_neg h10] at h
        rcases List.mem_append.1 h with h1 | h1
        · exact ih _ _ h1
        · simp at h1
          exact ⟨n % 10, Nat.mod_lt _ (by norm_num), h1⟩

theorem natStrGo_head_ne_zero :
    ∀ fuel n c cs, n < fuel → n ≠ 0 → natStrGo fuel n = c :: cs → c ≠ '0' := by
  intro fuel
  induction fuel with
  | zero => intro n c cs h; omega
  | succ f ih =>
      intro n c cs hn h0 heq
      rw [natStrGo] at heq
      by_cases h10 : n < 10
      · rw [if_pos h10] at heq
        injection heq with e1 _
        rw [← e1]
        exact (by decide : ∀ d : Nat, d < 10 → d ≠ 0 → decChar d ≠ '0') n h10 h0
      · rw [if_neg h10] at heq
        have h1 : n / 10 < f := by
          have h2 : n / 10 < n := Nat.div_lt_self (by omega) (by norm_num)
          omega
        have h2 : n / 10 ≠ 0 := by
          have := Nat.div_pos (show 10 ≤ n by omega) (show 0 < 10 by norm_num)
          omega
        obtain ⟨f', rfl⟩ : ∃ f', f = f' + 1 := ⟨f - 1, by omega⟩
        cases hl : natStrGo (f' + 1) (n / 10) with
        | nil => exact absurd hl (natStrGo_ne_nil f' (n / 10))
        | cons d ds =>
            rw [hl] at heq
            have hcd : d = c := by
              have h3 : d :: (ds ++ [decChar (n % 10)]) = c :: cs := by simpa using heq
              injection h3 with h4 _
            rw [← hcd]
            exact ih (n / 10) d ds h1 h2 hl

theorem natStr_data_eq (n : Nat) : (natStr n).data = natStrGo (n + 1) n := rfl

theorem natStr_head (n : Nat) :
    ∃ c cs, (natStr n).data = c :: cs ∧ c ≠ '-' ∧ c ≠ '+' ∧ (n ≠ 0 → c ≠ '0') := by
  cases hl : (natStr n).data with
  | nil => exact absurd (by rw [natStr_data_eq] at hl; exact hl) (natStrGo_ne_nil n n)
  | cons c cs =>
      have hmem : c ∈ natStrGo (n + 1) n := by
        rw [← natStr_data_eq, hl]; simp
      obtain ⟨d, hd, rfl⟩ := natStrGo_mem (n + 1) n c hmem
      refine ⟨decChar d, cs, rfl, ?_, ?_, ?_⟩
      · exact (by decide : ∀ d : Nat, d < 10 → decChar d ≠ '-') d hd
      · exact (by decide : ∀ d : Nat, d < 10 → decChar d ≠ '+') d hd
      · intro h0
        exact natStrGo_head_ne_zero (n + 1) n (decChar d) cs (by omega) h0
          (by rw [← natStr_data_eq, hl])

theorem zfill_data_of_head_digit (s : String) (w : Int) (c : Char) (cs : List Char)
    (h : s.data = c :: cs) (h1 : c ≠ '-') (h2 : c ≠ '+') :
    (zfill s w).data = List.replicate ((w - (s.length : Int)).toNat) '0' ++ s.data := by
  unfold zfill
  split
  · next heq => rw [h] at heq; simp at heq
  · next c' rest heq =>
      rw [h] at heq
      injection heq with e1 e2
      rw [if_neg (by rw [← e1]; push_neg; exact ⟨h1, h2⟩)]
      simp [h, ← e1, ← e2]

theorem zfill_natStr_data (n : Nat) (w : Int) :
    (zfill (natStr n) w).data =
      List.replicate ((w - ((natStr n).length : Int)).toNat) '0' ++ (natStr n).data := by
  obtain ⟨c, cs, hc, h1, h2, _⟩ := natStr_head n
  exact zfill_data_of_head_digit (natStr n) w c cs hc h1 h2

theorem dropWhile_replicate_zero (k : Nat) (l : List Char) :
    List.dropWhile (fun c => c == '0') (List.replicate k '0' ++ l) =
      List.dropWhile (fun c => c == '0') l := by
  induction k with
  | zero => simp
  | succ m ih => simp [List.replicate_succ, List.dropWhile_cons, ih]

theorem dlz_congr (l l' : List Char)
    (h : List.dropWhile (fun c => c == '0') l = List.dropWhile (fun c => c == '0') l') :
    dlz l = dlz l' := by
  unfold dlz
  rw [h]

theorem dlz_natStr (n : Nat) : dlz ((natStr n).data) = (natStr n).data := by
  by_cases h0 : n = 0
  · subst h0; decide
  · obtain ⟨c, cs, hc, _, _, hz⟩ := natStr_head n
    unfold dlz
    rw [hc, List.dropWhile_cons]
    have hcz : (c == '0') = false := by simpa using hz h0
    simp [hcz]

theorem dlz_zfill_natStr (n : Nat) (w : Int) :
    dlz ((zfill (natStr n) w).data) = (natStr n).data := by
  rw [dlz_congr _ ((natStr n).data), dlz_natStr]
  rw [zfill_natStr_data, dropWhile_replicate_zero]

theorem zfill_natStr_inj {a b : Nat} {w : Int}
    (h : zfill (natStr a) w = zfill (natStr b) w) : a = b := by
  have h1 : dlz ((zfill (natStr a) w).data) = dlz ((zfill (natStr b) w).data) := by rw [h]
  rw [dlz_zfill_natStr, dlz_zfill_natStr] at h1
  exact natStr_inj (String.ext h1)

theorem intStr_natCast (n : Nat) : intStr (n : Int) = natStr n := by
  rw [intStr, if_neg (Int.not_lt.2 (by exact_mod_cast Nat.zero_le n)), Int.natAbs_ofNat]

theorem natStrGo_fuel_irrel : ∀ (n f1 f2 : Nat), n < f1 → n < f2 →
    natStrGo f1 n = natStrGo f2 n := by
  intro n
  induction n using Nat.strong_induction_on with
  | _ n ih =>
      intro f1 f2 h1 h2
      obtain ⟨g1, rfl⟩ : ∃ g, f1 = g + 1 := ⟨f1 - 1, by omega⟩
      obtain ⟨g2, rfl⟩ : ∃ g, f2 = g + 1 := ⟨f2 - 1, by omega⟩
      rw [natStrGo, natStrGo]
      by_cases h10 : n < 10
      · rw [if_pos h10, if_pos h10]
      · rw [if_neg h10, if_neg h10]
        have hd : n / 10 < n := Nat.div_lt_self (by omega) (by norm_num)
        rw [ih (n / 10) hd g1 g2 (by omega) (by omega)]

theorem natStr_length_one {n : Nat} (h : n < 10) : (natStr n).length = 1 := by
  show (natStrGo (n + 1) n).length = 1
  rw [natStrGo, if_pos h]
  rfl

theorem natStr_length_of_ge {n : Nat} (h : ¬ n < 10) :
    (natStr n).length = (natStr (n / 10)).length + 1 := by
  show (natStrGo (n + 1) n).length = (natStrGo (n / 10 + 1) (n / 10)).length + 1
  rw [natStrGo, if_neg h]
  have hd : n / 10 < n := Nat.div_lt_self (by omega) (by norm_num)
  rw [natStrGo_fuel_irrel (n / 10) n (n / 10 + 1) hd (Nat.lt_succ_self _)]
  simp

theorem natStr_length_pos (n : Nat) : 1 ≤ (natStr n).length := by
  show 1 ≤ (natStrGo (n + 1) n).length
  cases hc : natStrGo (n + 1) n with
  | nil => exact absurd hc (natStrGo_ne_nil n n)
  | cons c cs => simp

theorem natStr_length_mono : ∀ (b a : Nat), a ≤ b → (natStr a).length ≤ (natStr b).length := by
  intro b
  induction b using Nat.strong_induction_on with
  | _ b ih =>
      intro a hab
      by_cases hb : b < 10
      · rw [natStr_length_one (show a < 10 by omega), natStr_length_one hb]
      · by_cases ha : a < 10
        · rw [natStr_length_one ha]
          exact natStr_length_pos b
        · rw [natStr_length_of_ge ha, natStr_length_of_ge hb]
          have h2 : b / 10 < b := Nat.div_lt_self (by omega) (by norm_num)
          exact Nat.add_le_add_right (ih (b / 10) h2 (a / 10) (Nat.div_le_div_right hab)) 1

theorem intStr_of_nonneg {a : Int} (h : 0 ≤ a) : intStr a = natStr a.natAbs := by
  rw [intStr, if_neg (Int.not_lt.2 h)]

theorem intStr_neg_data {b : Int} (hb : b < 0) :
    (intStr b).data = '-' :: (natStr b.natAbs).data := by
  rw [intStr, if_pos hb, String.data_append]
  rfl

theorem intStr_neg_length {b : Int} (hb : b < 0) :
    (intStr b).length = (natStr b.natAbs).length + 1 := by
  show (intStr b).data.length = (natStr b.natAbs).data.length + 1
  rw [intStr_neg_data hb]
  simp

theorem zfill_data_of_head_sign (s : String) (w : Int) (cs : List Char)
    (h : s.data = '-' :: cs) :
    (zfill s w).data = '-' :: (List.replicate ((w - (s.length : Int)).toNat) '0' ++ cs) := by
  unfold zfill
  split
  · next heq => rw [h] at heq; simp at heq
  · next c' rest heq =>
      rw [h] at heq
      injection heq with e1 e2
      rw [if_pos (by rw [← e1]; exact Or.inl rfl)]
      simp [← e1, ← e2]

theorem zfill_natStr_no_dash (n : Nat) (w : Int) :
    ∀ c ∈ (zfill (natStr n) w).data, c ≠ '-' := by
  intro c hc
  rw [zfill_natStr_data] at hc
  rcases List.mem_append.1 hc with h | h
  · rw [List.eq_of_mem_replicate h]
    decide
  · obtain ⟨d, hd, rfl⟩ := natStrGo_mem (n + 1) n c h
    exact (by decide : ∀ d : Nat, d < 10 → decChar d ≠ '-') d hd

theorem dlz_replicate_natStr (k n : Nat) :
    dlz (List.replicate k '0' ++ (natStr n).data) = (natStr n).data := by
  rw [dlz_congr (List.replicate k '0' ++ (natStr n).data) ((natStr n).data)
    (dropWhile_replicate_zero k ((natStr n).data)), dlz_natStr]

theorem zfill_eq_self_of_le {s : String} {w : Int} (h : w ≤ (s.length : Int)) :
    zfill s w = s := by
  have hpad : (w - (s.length : Int)).toNat = 0 := by omega
  unfold zfill
  split
  · next heq =>
      rw [hpad]
      exact String.ext (by simp [heq])
  · next c rest heq =>
      rw [hpad]
      split
      · exact String.ext (by simp [heq])
      · exact String.ext (by simp [heq])

theorem zfill_intStr_inj {a b w : Int}
    (h : zfill (intStr a) w = zfill (intStr b) w) : a = b := by
  rcases Int.lt_or_le a 0 with ha | ha <;> rcases Int.lt_or_le b 0 with hb | hb
  · have hd := congrArg String.data h
    rw [zfill_data_of_head_sign (intStr a) w ((natStr a.natAbs).data) (intStr_neg_data ha),
        zfill_data_of_head_sign (intStr b) w ((natStr b.natAbs).data) (intStr_neg_data hb)] at hd
    injection hd with hhead htail
    have hdlz := congrArg dlz htail
    rw [dlz_replicate_natStr, dlz_replicate_natStr] at hdlz
    have habs := natStr_inj (String.ext hdlz)
    omega
  · exfalso
    have hd := congrArg String.data h
    rw [zfill_data_of_head_sign (intStr a) w ((natStr a.natAbs).data) (intStr_neg_data ha),
        intStr_of_nonneg hb] at hd
    exact zfill_natStr_no_dash b.natAbs w '-' (by rw [← hd]; simp) rfl
  · exfalso
    have hd := congrArg String.data h
    rw [zfill_data_of_head_sign (intStr b) w ((natStr b.natAbs).data) (intStr_neg_data hb),
        intStr_of_nonneg ha] at hd
    exact zfill_natStr_no_dash a.natAbs w '-' (by rw [hd]; simp) rfl
  · rw [intStr_of_nonneg ha, intStr_of_nonneg hb] at h
    have habs := zfill_natStr_inj h
    omega

theorem mkTarget_inj {pre bn suf : String} {zp : Int} {a b : Int}
    (h : mkTarget pre bn suf zp a = mkTarget pre bn suf zp b) : a = b := by
  rw [mkTarget, mkTarget] at h
  have hd := congrArg String.data h
  simp only [String.data_append, List.append_assoc] at hd
  have h1 := List.append_cancel_left hd
  have h2 := List.append_cancel_left h1
  have h3 := List.append_cancel_left h2
  have h4 := List.append_cancel_right h3
  exact zfill_intStr_inj (String.ext h4)

/- The naming plan. -/

theorem planLoop_length (pre bn suf : String) (zp : Int) :
    ∀ (files : List String) (idx : Int),
      (planLoop pre bn suf zp idx files).length = files.length := by
  intro files
  induction files with
  | nil => intro idx; rfl
  | cons a t ih => intro idx; simp [planLoop, ih]

theorem planLoop_get (pre bn suf : String) (zp : Int) :
    ∀ (files : List String) (idx : Int) (i : Nat)
      (h1 : i < (planLoop pre bn suf zp idx files).length) (h2 : i < files.length),
      (planLoop pre bn suf zp idx files).get ⟨i, h1⟩ =
        (files.get ⟨i, h2⟩, mkTarget pre bn suf zp (idx + (i : Int))) := by
  intro files
  induction files with
  | nil => intro idx i h1 h2; simp at h2
  | cons a t ih =>
      intro idx i h1 h2
      cases i with
      | zero => simp [planLoop, List.get]
      | succ j =>
          have h1' : j < (planLoop pre bn suf zp (idx + 1) t).length := by
            rw [planLoop_length]
            rw [planLoop_length] at h1
            simpa using h1
          have h2' : j < t.length := by simpa using h2
          have hstep : (planLoop pre bn suf zp idx (a :: t)).get ⟨j + 1, h1⟩ =
              (planLoop pre bn suf zp (idx + 1) t).get ⟨j, h1'⟩ := rfl
          rw [hstep, ih (idx + 1) j h1' h2']
          have hidx : idx + 1 + (j : Int) = idx + ((j + 1 : Nat) : Int) := by push_cast; ring
          rw [hidx]
          rfl

/-- C5: for every non-empty file list and non-empty basename, `plan_renames`
    returns one entry per file; the i-th target equals
    `prefix + basename + "_" + zfill(str(startIndex + i), width) + suffix +
    ".png"`, where the width is `zeroPadding` when non-zero and otherwise the
    number of decimal digits of `startIndex + len(files) - 1`; every target
    ends in `.png` and the targets are pairwise distinct. -/
theorem c5_plan_formula :
    ∀ (files : List String) (bn : String) (s z : Int) (pre suf : String),
      files ≠ [] → pyStrip bn ≠ "" →
      ∃ l, plan_renames files bn s z pre suf = some l ∧
        l.length = files.length ∧
        (∀ i (h1 : i < l.length) (h2 : i < files.length),
          l.get ⟨i, h1⟩ = (files.get ⟨i, h2⟩,
            mkTarget pre bn suf
              (if z ≠ 0 then z
                else ((numDigits (s + (files.length : Int) - 1).natAbs : Nat) : Int))
              (s + (i : Int)))) ∧
        (∀ e ∈ l, ∃ y, e.2 = y ++ ".png") ∧
        (∀ i j (hi : i < l.length) (hj : j < l.length), i ≠ j →
          (l.get ⟨i, hi⟩).2 ≠ (l.get ⟨j, hj⟩).2) := by
  intro files bn s z pre suf hne hb
  have hempty : files.isEmpty = false := by
    cases files with
    | nil => exact absurd rfl hne
    | cons a t => rfl
  have hmk : ∀ i : Nat, i < files.length →
      mkTarget pre bn suf
        (if z = 0 then (((intStr (s + (files.length : Int) - 1)).length : Nat) : Int) else z)
        (s + (i : Int)) =
      mkTarget pre bn suf
        (if z ≠ 0 then z
          else ((numDigits (s + (files.length : Int) - 1).natAbs : Nat) : Int))
        (s + (i : Int)) := by
    intro i hi
    by_cases hz : z = 0
    · rw [if_pos hz, if_neg (by simp [hz])]
      rcases Int.lt_or_le (s + (files.length : Int) - 1) 0 with hmax | hmax
      · -- negative maximal index: every index prints with its sign at least as
        -- wide as either width, so zfill pads nothing under both widths
        have hidx_le : s + (i : Int) ≤ s + (files.length : Int) - 1 := by
          have hilt : (i : Int) < (files.length : Int) := by exact_mod_cast hi
          omega
        have hidx_neg : s + (i : Int) < 0 := by omega
        have habs : (s + (files.length : Int) - 1).natAbs ≤ (s + (i : Int)).natAbs := by
          omega
        have hmono := natStr_length_mono ((s + (i : Int)).natAbs)
          ((s + (files.length : Int) - 1).natAbs) habs
        have hlenidx := intStr_neg_length hidx_neg
        have hlenmax := intStr_neg_length hmax
        have b1 : (((intStr (s + (files.length : Int) - 1)).length : Nat) : Int) ≤
            (((intStr (s + (i : Int))).length : Nat) : Int) := by
          rw [hlenidx, hlenmax]
          omega
        have b2 : ((numDigits (s + (files.length : Int) - 1).natAbs : Nat) : Int) ≤
            (((intStr (s + (i : Int))).length : Nat) : Int) := by
          rw [hlenidx]
          unfold numDigits
          omega
        unfold mkTarget
        rw [zfill_eq_self_of_le b1, zfill_eq_self_of_le b2]
      · -- nonnegative maximal index: the two widths coincide
        have hw : (((intStr (s + (files.length : Int) - 1)).length : Nat) : Int) =
            ((numDigits (s + (files.length : Int) - 1).natAbs : Nat) : Int) := by
          rw [intStr_of_nonneg hmax]
          rfl
        rw [hw]
    · rw [if_neg hz, if_pos hz]
  refine ⟨planLoop pre bn suf
      (if z = 0 then (((intStr (s + (files.length : Int) - 1)).length : Nat) : Int) else z)
      s files, ?_, ?_, ?_, ?_, ?_⟩
  · rw [plan_renames, if_neg hb, hempty]
    rfl
  · rw [planLoop_length]
  · intro i h1 h2
    rw [planLoop_get pre bn suf _ files s i h1 h2, hmk i h2]
  · intro e he
    obtain ⟨⟨i, hi⟩, rfl⟩ := List.mem_iff_get.1 he
    have h2 : i < files.length := by
      rw [planLoop_length] at hi
      exact hi
    rw [planLoop_get pre bn suf _ files s i hi h2]
    exact ⟨pre ++ bn ++ "_" ++
      zfill (intStr (s + (i : Int)))
        (if z = 0 then (((intStr (s + (files.length : Int) - 1)).length : Nat) : Int) else z) ++
      suf, rfl⟩
  · intro i j hi hj hij
    have h2i : i < files.length := by rw [planLoop_length] at hi; exact hi
    have h2j : j < files.length := by rw [planLoop_length] at hj; exact hj
    rw [planLoop_get pre bn suf _ files s i hi h2i, planLoop_get pre bn suf _ files s j hj h2j]
    intro heq
    have hs := mkTarget_inj heq
    have hij' : (i : Int) = (j : Int) := by omega
    exact hij (by exact_mod_cast hij')

/-- Witness for C5 at a concrete plan. -/
theorem c5_plan_formula_witness :
    (plan_renames ["a.png", "b.png"] "f" 1 0 "" "").isSome = true := by
  obtain ⟨l, hl, -⟩ := c5_plan_formula ["a.png", "b.png"] "f" 1 0 "" ""
    (by decide) (by decide)
  rw [hl]
  rfl

/-- C7 counterexample: with an empty file list and an empty basename the
    program raises `ValueError` (modelled as `none`) instead of returning the
    empty plan, because the basename check runs before the empty-list check. -/
theorem c7_counterexample : plan_renames [] "" 1 0 "" "" = none := by decide

/-- C7 (amended): `plan_renames` fails with `InvalidParameter` whenever the
    basename is empty after trimming, even on an empty file list; when the
    basename is valid, an empty file list yields the empty plan regardless of
    the remaining parameters. -/
theorem c7_empty_cases :
    (∀ (bn : String) (s z : Int) (pre suf : String),
        pyStrip bn ≠ "" → plan_renames [] bn s z pre suf = some []) ∧
    (∀ (files : List String) (bn : String) (s z : Int) (pre suf : String),
        pyStrip bn = "" → plan_renames files bn s z pre suf = none) := by
  constructor
  · intro bn s z pre suf hb
    rw [plan_renames, if_neg hb]
    rfl
  · intro files bn s z pre suf hb
    rw [plan_renames, if_pos hb]

/-- Witness for C7 at concrete parameters. -/
theorem c7_empty_cases_witness :
    plan_renames [] "fr" 3 2 "p" "s" = some [] ∧ plan_renames ["a.png"] " " 1 0 "" "" = none :=
  ⟨c7_empty_cases.1 "fr" 3 2 "p" "s" (by decide), c7_empty_cases.2 ["a.png"] " " 1 0 "" "" (by decide)⟩

/-- C8: the natural sort key splits a name into alternating non-digit and
    digit runs, compares digit runs numerically and non-digit runs
    case-insensitively, and Name-mode listing therefore orders
    `frame1.png, frame2.png, frame10.png` naturally rather than
    lexicographically. -/
theorem c8_natural_sort :
    natural_sort_key "frame10.png" = [KeyPart.str "frame", KeyPart.num 10, KeyPart.str ".png"] ∧
    natural_sort_key "FRAME2.PNG" = natural_sort_key "frame2.png" ∧
    keyLt (natural_sort_key "frame2.png") (natural_sort_key "frame10.png") = true ∧
    strLt "frame10.png" "frame2.png" = true ∧
    sortByName ["frame10.png", "frame2.png", "frame1.png"] =
      ["frame1.png", "frame2.png", "frame10.png"] := by
  refine ⟨?_, ?_, ?_, ?_, ?_⟩ <;> decide

/- The collision detector. -/

theorem head_ne_of_append {p q a b : String} {c d : Char} {cp dq : List Char}
    (hp : p.data = c :: cp) (hq : q.data = d :: dq) (hcd : c ≠ d) : p ++ a ≠ q ++ b := by
  intro h
  have hd := congrArg String.data h
  rw [String.data_append, String.data_append, hp, hq] at hd
  injection hd with h1 _
  exact hcd h1

theorem dupMsg_inj {a b : String} (h : dupMsg a = dupMsg b) : a = b := by
  have hd := congrArg String.data h
  rw [dupMsg, dupMsg, String.data_append, String.data_append] at hd
  exact String.ext (List.append_cancel_left hd)

theorem dupMsg_ne_overwriteMsg (a b : String) : dupMsg a ≠ overwriteMsg b :=
  @head_ne_of_append "Duplicate target name: " "Would overwrite existing file: " a b 'D' 'W'
    "uplicate target name: ".data "ould overwrite existing file: ".data
    (by decide) (by decide) (by decide)

theorem entryCollisions_congr (folder : String) (fs : List (String × Nat))
    (s₁ s₂ : List String) (e : String × String) (h : e.2 ∈ s₁ ↔ e.2 ∈ s₂) :
    entryCollisions folder fs s₁ e = entryCollisions folder fs s₂ e := by
  unfold entryCollisions
  by_cases h1 : e.2 ∈ s₁
  · rw [if_pos h1, if_pos (h.1 h1)]
  · rw [if_neg h1, if_neg (fun h2 => h1 (h.2 h2))]

theorem detectLoop_eq_spec (folder : String) (fs : List (String × Nat)) :
    ∀ (renames : List (String × String)) (seen pre : List String),
      (∀ x, x ∈ seen ↔ x ∈ pre) →
      detectLoop folder fs renames seen = detectSpecGo folder fs pre renames := by
  intro renames
  induction renames with
  | nil => intro seen pre _; rfl
  | cons e rest ih =>
      intro seen pre h
      obtain ⟨old, new⟩ := e
      show entryCollisions folder fs seen (old, new) ++ detectLoop folder fs rest (new :: seen) =
        entryCollisions folder fs pre (old, new) ++ detectSpecGo folder fs (pre ++ [new]) rest
      rw [entryCollisions_congr folder fs seen pre (old, new) (h new)]
      rw [ih (new :: seen) (pre ++ [new]) (by intro x; simp [List.mem_cons, h x, or_comm])]

theorem detect_eq_spec (renames : List (String × String)) (folder : String)
    (fs : List (String × Nat)) :
    detect_collisions renames folder fs = detectSpec folder fs renames :=
  detectLoop_eq_spec folder fs renames [] [] (fun _ => Iff.rfl)

theorem detectLoop_count_dup (folder : String) (fs : List (String × Nat)) (t : String) :
    ∀ (renames : List (String × String)) (seen : List String),
      (detectLoop folder fs renames seen).count (dupMsg t) =
        if t ∈ seen then (renames.map Prod.snd).count t
        else (renames.map Prod.snd).count t - 1 := by
  intro renames
  induction renames with
  | nil => intro seen; split <;> rfl
  | cons e rest ih =>
      intro seen
      obtain ⟨old, new⟩ := e
      have hover : List.count (dupMsg t)
          (if fsExists fs (pathJoin folder new) = true ∧ pathJoin folder new ≠ old
            then [overwriteMsg new] else []) = 0 := by
        split
        · simp [List.count_cons, Ne.symm (dupMsg_ne_overwriteMsg t new)]
        · rfl
      have hdup : List.count (dupMsg t) (if new ∈ seen then [dupMsg new] else []) =
          if new = t ∧ new ∈ seen then 1 else 0 := by
        by_cases h2 : new = t
        · subst h2
          by_cases h1 : new ∈ seen <;> simp [h1, List.count_cons]
        · have hne : dupMsg new ≠ dupMsg t := fun h => h2 (dupMsg_inj h)
          by_cases h1 : new ∈ seen <;> simp [h1, h2, List.count_cons, hne]
      show List.count (dupMsg t)
        (((if new ∈ seen then [dupMsg new] else []) ++
          (if fsExists fs (pathJoin folder new) = true ∧ pathJoin folder new ≠ old
            then [overwriteMsg new] else [])) ++
          detectLoop folder fs rest (new :: seen)) = _
      rw [List.count_append, List.count_append, hover, hdup, ih (new :: seen)]
      rcases eq_or_ne new t with rfl | hnt
      · by_cases hts : new ∈ seen <;> simp [hts, List.count_cons] <;> omega
      · by_cases hts : t ∈ seen <;>
          simp [hnt, Ne.symm hnt, hts, List.count_cons] <;> omega

theorem detectLoop_nil_facts (folder : String) (fs : List (String × Nat)) :
    ∀ (renames : List (String × String)) (seen : List String),
      detectLoop folder fs renames seen = [] →
      (renames.map Prod.snd).Nodup ∧
      (∀ e ∈ renames, e.2 ∉ seen) ∧
      (∀ e ∈ renames, fsExists fs (pathJoin folder e.2) = true → pathJoin folder e.2 = e.1) := by
  intro renames
  induction renames with
  | nil => intro seen _; exact ⟨List.nodup_nil, by simp, by simp⟩
  | cons e rest ih =>
      intro seen h
      obtain ⟨old, new⟩ := e
      have h' : ((if new ∈ seen then [dupMsg new] else []) ++
          (if fsExists fs (pathJoin folder new) = true ∧ pathJoin folder new ≠ old
            then [overwriteMsg new] else [])) ++
          detectLoop folder fs rest (new :: seen) = [] := h
      rw [List.append_eq_nil, List.append_eq_nil] at h'
      obtain ⟨⟨h1, h2⟩, h3⟩ := h'
      have hnotseen : new ∉ seen := by
        intro hs
        rw [if_pos hs] at h1
        exact absurd h1 (by simp)
      have hexists : fsExists fs (pathJoin folder new) = true → pathJoin folder new = old := by
        intro hex
        by_contra hne
        rw [if_pos ⟨hex, hne⟩] at h2
        exact absurd h2 (by simp)
      obtain ⟨ihnodup, ihseen, ihex⟩ := ih (new :: seen) h3
      refine ⟨?_, ?_, ?_⟩
      · rw [List.map_cons, List.nodup_cons]
        constructor
        · intro hmem
          obtain ⟨e', he', hsnd⟩ := List.mem_map.1 hmem
          exact (hsnd ▸ ihseen e' he') (List.mem_cons_self _ _)
        · exact ihnodup
      · intro e he
        rcases List.mem_cons.1 he with rfl | he'
        · exact hnotseen
        · exact fun hs => (ihseen e he') (List.mem_cons_of_mem _ hs)
      · intro e he hex
        rcases List.mem_cons.1 he with rfl | he'
        · exact hexists hex
        · exact ihex e he' hex

theorem detectLoop_over_mem (folder : String) (fs : List (String × Nat)) :
    ∀ (renames : List (String × String)) (seen : List String) (old t : String),
      (old, t) ∈ renames → fsExists fs (pathJoin folder t) = true → pathJoin folder t ≠ old →
      overwriteMsg t ∈ detectLoop folder fs renames seen := by
  intro renames
  induction renames with
  | nil => intro seen old t h; simp at h
  | cons e rest ih =>
      intro seen old t hmem hex hne
      obtain ⟨o, n⟩ := e
      rcases List.mem_cons.1 hmem with heq | hmem'
      · injection heq with e1 e2
        subst e1; subst e2
        show overwriteMsg t ∈ ((if t ∈ seen then [dupMsg t] else []) ++
          (if fsExists fs (pathJoin folder t) = true ∧ pathJoin folder t ≠ old
            then [overwriteMsg t] else [])) ++ detectLoop folder fs rest (t :: seen)
        apply List.mem_append_left
        apply List.mem_append_right
        rw [if_pos ⟨hex, hne⟩]
        simp
      · exact List.mem_append_right _ (ih (n :: seen) old t hmem' hex hne)

/-- C6: the detector emits collisions in plan order — it equals the
    specification form in which every entry contributes its messages seeing
    exactly the targets of the entries before it (the embedding is pure, so
    freedom from mutation holds by construction); two entries mapping to one
    target produce exactly one `DuplicateTarget`; an entry whose target exists
    on disk as its own source file (and is no duplicate) reports no collision;
    and an entry whose target exists on disk at a different path reports
    `TargetExists`. -/
theorem c6_detect_contract :
    ∀ (renames : List (String × String)) (folder : String) (fs : List (String × Nat)),
      detect_collisions renames folder fs = detectSpec folder fs renames ∧
      (∀ t, (renames.map Prod.snd).count t = 2 →
        (detect_collisions renames folder fs).count (dupMsg t) = 1) ∧
      (∀ (old t : String) (seen : List String), pathJoin folder t = old → t ∉ seen →
        entryCollisions folder fs seen (old, t) = []) ∧
      (∀ (old t : String), (old, t) ∈ renames →
        fsExists fs (pathJoin folder t) = true → pathJoin folder t ≠ old →
        overwriteMsg t ∈ detect_collisions renames folder fs) := by
  intro renames folder fs
  refine ⟨detect_eq_spec renames folder fs, ?_, ?_, ?_⟩
  · intro t h2
    show (detectLoop folder fs renames []).count (dupMsg t) = 1
    rw [detectLoop_count_dup folder fs t renames []]
    simp [h2]
  · intro old t seen hown hns
    unfold entryCollisions
    rw [if_neg hns, if_neg (fun hc => hc.2 hown)]
    rfl
  · intro old t hmem hex hne
    exact detectLoop_over_mem folder fs renames [] old t hmem hex hne

/-- Witness for C6: a two-entry duplicate produces one message, and a
    `TargetExists` collision is reported for a target occupied by a foreign
    file. -/
theorem c6_detect_contract_witness :
    (detect_collisions [("d/a.png", "x.png"), ("d/b.png", "x.png")] "d" []).count
        (dupMsg "x.png") = 1 ∧
    overwriteMsg "x.png" ∈ detect_collisions [("d/a.png", "x.png")] "d" [("d/x.png", 5)] :=
  ⟨(c6_detect_contract [("d/a.png", "x.png"), ("d/b.png", "x.png")] "d" []).2.1 "x.png"
      (by decide),
    (c6_detect_contract [("d/a.png", "x.png")] "d" [("d/x.png", 5)]).2.2.2 "d/a.png" "x.png"
      (by decide) (by decide) (by decide)⟩

/-- C9: when n plan entries share one target, the detector reports exactly
    n - 1 `DuplicateTarget` collisions for that name (each occurrence after the
    first emits one), and a single entry can contribute both a
    `DuplicateTarget` and a `TargetExists` message, as the concrete run shows
    (its second entry contributes the last two messages). -/
theorem c9_duplicate_count :
    (∀ (renames : List (String × String)) (folder : String) (fs : List (String × Nat))
        (t : String) (n : Nat), 2 ≤ n → (renames.map Prod.snd).count t = n →
        (detect_collisions renames folder fs).count (dupMsg t) = n - 1) ∧
    detect_collisions [("d/a.png", "x.png"), ("d/b.png", "x.png")] "d" [("d/x.png", 7)] =
      [overwriteMsg "x.png", dupMsg "x.png", overwriteMsg "x.png"] := by
  constructor
  · intro renames folder fs t n _ hcount
    show (detectLoop folder fs renames []).count (dupMsg t) = n - 1
    rw [detectLoop_count_dup folder fs t renames []]
    simp [hcount]
  · decide

/-- Witness for C9: three entries sharing a target yield two duplicates. -/
theorem c9_duplicate_count_witness :
    (detect_collisions [("a", "x.png"), ("b", "x.png"), ("c", "x.png")] "d" []).count
        (dupMsg "x.png") = 2 :=
  c9_duplicate_count.1 [("a", "x.png"), ("b", "x.png"), ("c", "x.png")] "d" [] "x.png" 3
    (by decide) (by decide)

/- The filesystem model. -/

theorem fsLookup_erase (fs : List (String × Nat)) (p q : String) :
    fsLookup (fsErase fs p) q = if q = p then none else fsLookup fs q := by
  induction fs with
  | nil => split <;> rfl
  | cons kv rest ih =>
      obtain ⟨k, v⟩ := kv
      by_cases hk : k = p
      · rw [show fsErase ((k, v) :: rest) p = fsErase rest p from by rw [fsErase, if_pos hk]]
        rw [ih]
        by_cases hq : q = p
        · simp [hq]
        · rw [if_neg hq, if_neg hq]
          rw [show fsLookup ((k, v) :: rest) q = if k = q then some v else fsLookup rest q from rfl]
          rw [if_neg (fun h => hq (by rw [← h, hk]))]
      · rw [show fsErase ((k, v) :: rest) p = (k, v) :: fsErase rest p from by
          rw [fsErase, if_neg hk]]
        rw [show fsLookup ((k, v) :: fsErase rest p) q =
          if k = q then some v else fsLookup (fsErase rest p) q from rfl]
        rw [show fsLookup ((k, v) :: rest) q = if k = q then some v else fsLookup rest q from rfl]
        by_cases hkq : k = q
        · rw [if_pos hkq, if_pos hkq, if_neg (fun h => hk (by rw [hkq, h]))]
        · rw [if_neg hkq, if_neg hkq, ih]

theorem fsLookup_set (fs : List (String × Nat)) (p : String) (v : Nat) (q : String) :
    fsLookup (fsSet fs p v) q = if q = p then some v else fsLookup fs q := by
  rw [fsSet, show fsLookup ((p, v) :: fsErase fs p) q =
    if p = q then some v else fsLookup (fsErase fs p) q from rfl, fsLookup_erase]
  by_cases h : q = p
  · simp [h]
  · rw [if_neg (fun h2 => h h2.symm), if_neg h, if_neg h]

theorem fsExists_set_erase (fs : List (String × Nat)) (src dst p : String) (v : Nat) :
    fsExists (fsSet (fsErase fs src) dst v) p =
      if p = dst then true else if p = src then false else fsExists fs p := by
  unfold fsExists
  rw [fsLookup_set, fsLookup_erase]
  split_ifs <;> simp [fsExists]

theorem fsExists_eq_true_iff (fs : List (String × Nat)) (p : String) :
    fsExists fs p = true ↔ ∃ v, fsLookup fs p = some v := by
  unfold fsExists
  exact Option.isSome_iff_exists

theorem pathJoin_inj {folder a b : String} (h : pathJoin folder a = pathJoin folder b) : a = b := by
  have hd := congrArg String.data h
  rw [pathJoin, pathJoin, String.data_append, String.data_append] at hd
  exact String.ext (List.append_cancel_left hd)

theorem tempNameOf_inj {ts a b : String} (h : tempNameOf ts a = tempNameOf ts b) : a = b := by
  have hd := congrArg String.data h
  rw [tempNameOf, tempNameOf, String.data_append, String.data_append] at hd
  exact String.ext (List.append_cancel_left hd)

theorem tempPath_name_inj {folder ts a b : String}
    (h : pathJoin folder (tempNameOf ts a) = pathJoin folder (tempNameOf ts b)) : a = b :=
  tempNameOf_inj (pathJoin_inj h)

theorem ne_of_baseName_ne {a b : String} (h : baseName a ≠ baseName b) : a ≠ b :=
  fun he => h (congrArg baseName he)

/- The staging phase. -/

theorem stagePhase_ok (folder ts : String) :
    ∀ (renames : List (String × String)) (w : World) (acc : List (String × String)),
      (∀ e ∈ renames, fsExists w.fs e.1 = true) →
      (∀ e ∈ renames, fsExists w.fs (tempPathOf folder ts e) = false) →
      ((renames.map fun e => baseName e.1).Nodup) →
      (∀ e ∈ stagedEntries renames, fsExists w.fs (pathJoin folder e.2) = false) →
      (∀ e ∈ renames, ∀ e' ∈ renames, tempPathOf folder ts e ≠ pathJoin folder e'.2) →
      ∃ w' : World,
        stagePhase cfgPure folder ts w renames acc =
          StageResult.ok w' (acc ++ stagedTemps folder ts renames) ∧
        (∀ p : String, fsExists w.fs p = false →
          (∀ e ∈ stagedEntries renames, p ≠ tempPathOf folder ts e) →
          fsExists w'.fs p = false) ∧
        (∀ p : String, fsExists w.fs p = true →
          (∀ e ∈ renames, p ≠ e.1) → fsExists w'.fs p = true) ∧
        (∀ e ∈ stagedEntries renames, fsExists w'.fs (tempPathOf folder ts e) = true) ∧
        (∀ e ∈ stagedEntries renames, fsExists w'.fs (pathJoin folder e.2) = false) := by
  intro renames
  induction renames with
  | nil =>
      intro w acc _ _ _ _ _
      exact ⟨w, by simp [stagePhase, stagedTemps, stagedEntries],
        fun p hp _ => hp, fun p hp _ => hp, by simp [stagedEntries], by simp [stagedEntries]⟩
  | cons e rest ih =>
      intro w acc Hsrc Htf Hnodup Htgt Htne
      obtain ⟨old, new⟩ := e
      have hhd : (old, new) ∈ (old, new) :: rest := List.mem_cons_self _ _
      have hbn : baseName old ∉ rest.map (fun e => baseName e.1) ∧
          (rest.map fun e => baseName e.1).Nodup := by
        simpa [List.nodup_cons] using Hnodup
      have hbne : ∀ e ∈ rest, baseName e.1 ≠ baseName old :=
        fun e he h => hbn.1 (List.mem_map.2 ⟨e, he, h⟩)
      by_cases hst : (baseName old != new) = true
      · -- the entry is staged
        have hstaged : stagedEntries ((old, new) :: rest) =
            (old, new) :: stagedEntries rest := by
          unfold stagedEntries
          simp [List.filter_cons, hst]
        have hsrc_old := Hsrc (old, new) hhd
        obtain ⟨v, hlk⟩ := (fsExists_eq_true_iff w.fs old).1 hsrc_old
        have htemp_w := Htf (old, new) hhd
        have hos : osRename cfgPure w old (pathJoin folder (tempNameOf ts (baseName old))) =
            (⟨fsSet (fsErase w.fs old) (pathJoin folder (tempNameOf ts (baseName old))) v,
              w.clock + 1⟩,
              some (fsExists w.fs (pathJoin folder (tempNameOf ts (baseName old))) &&
                old != pathJoin folder (tempNameOf ts (baseName old)))) := by
          unfold osRename
          rw [if_neg (by simp [cfgPure]), hlk]
        have hstep : stagePhase cfgPure folder ts w ((old, new) :: rest) acc =
            stagePhase cfgPure folder ts
              ⟨fsSet (fsErase w.fs old) (pathJoin folder (tempNameOf ts (baseName old))) v,
                w.clock + 1⟩
              rest (acc ++ [(pathJoin folder (tempNameOf ts (baseName old)), new)]) := by
          conv_lhs => rw [stagePhase]
          rw [if_pos hst, hos]
        set temp := pathJoin folder (tempNameOf ts (baseName old)) with htempdef
        set w₁ : World := ⟨fsSet (fsErase w.fs old) temp v, w.clock + 1⟩ with hw₁def
        have htp : tempPathOf folder ts (old, new) = temp := rfl
        have htemp_w' : fsExists w.fs temp = false := htemp_w
        have hw₁ : ∀ p, fsExists w₁.fs p =
            if p = temp then true else if p = old then false else fsExists w.fs p := by
          intro p
          exact fsExists_set_erase w.fs old temp p v
        have Hsrc' : ∀ e ∈ rest, fsExists w₁.fs e.1 = true := by
          intro e he
          have h1 : e.1 ≠ old := ne_of_baseName_ne (hbne e he)
          have h2 : e.1 ≠ temp := by
            intro h
            have hx := Hsrc e (List.mem_cons_of_mem _ he)
            rw [h, htemp_w'] at hx
            simp at hx
          rw [hw₁, if_neg h2, if_neg h1]
          exact Hsrc e (List.mem_cons_of_mem _ he)
        have Htf' : ∀ e ∈ rest, fsExists w₁.fs (tempPathOf folder ts e) = false := by
          intro e he
          have h1 : tempPathOf folder ts e ≠ temp := by
            intro h
            exact hbne e he (tempPath_name_inj h)
          rw [hw₁, if_neg h1]
          by_cases h2 : tempPathOf folder ts e = old
          · rw [if_pos h2]
          · rw [if_neg h2]
            exact Htf e (List.mem_cons_of_mem _ he)
        have Htgt' : ∀ e ∈ stagedEntries rest, fsExists w₁.fs (pathJoin folder e.2) = false := by
          intro e he
          have hmemr : e ∈ rest := (List.mem_filter.1 he).1
          have h1 : pathJoin folder e.2 ≠ temp :=
            fun h => Htne (old, new) hhd e (List.mem_cons_of_mem _ hmemr) h.symm
          rw [hw₁, if_neg h1]
          by_cases h2 : pathJoin folder e.2 = old
          · rw [if_pos h2]
          · rw [if_neg h2]
            have : e ∈ stagedEntries ((old, new) :: rest) := by
              rw [hstaged]
              exact List.mem_cons_of_mem _ he
            exact Htgt e this
        have Htne' : ∀ e ∈ rest, ∀ e' ∈ rest,
            tempPathOf folder ts e ≠ pathJoin folder e'.2 :=
          fun e he e' he' =>
            Htne e (List.mem_cons_of_mem _ he) e' (List.mem_cons_of_mem _ he')
        obtain ⟨w', heq, F1, F2, T, G⟩ :=
          ih w₁ (acc ++ [(temp, new)]) Hsrc' Htf' hbn.2 Htgt' Htne'
        refine ⟨w', ?_, ?_, ?_, ?_, ?_⟩
        · rw [hstep, heq]
          unfold stagedTemps
          rw [hstaged]
          simp [tempPathOf]
        · intro p hp hne
          have hp_ne_temp : p ≠ temp := hne (old, new) (by rw [hstaged]; exact List.mem_cons_self _ _)
          have hp₁ : fsExists w₁.fs p = false := by
            rw [hw₁, if_neg hp_ne_temp]
            by_cases h2 : p = old
            · rw [if_pos h2]
            · rw [if_neg h2]; exact hp
          exact F1 p hp₁ (fun e he => hne e (by rw [hstaged]; exact List.mem_cons_of_mem _ he))
        · intro p hp hne
          have hp_ne_old : p ≠ old := hne (old, new) hhd
          have hp_ne_temp : p ≠ temp := by
            intro h
            rw [h, htemp_w'] at hp
            simp at hp
          have hp₁ : fsExists w₁.fs p = true := by
            rw [hw₁, if_neg hp_ne_temp, if_neg hp_ne_old]
            exact hp
          exact F2 p hp₁ (fun e he => hne e (List.mem_cons_of_mem _ he))
        · intro e he
          rw [hstaged] at he
          rcases List.mem_cons.1 he with rfl | he'
          · -- the head's temporary
            rw [htp]
            have h1 : fsExists w₁.fs temp = true := by
              rw [hw₁, if_pos rfl]
            refine F2 _ h1 ?_
            intro e' he' h
            have hx := Hsrc e' (List.mem_cons_of_mem _ he')
            rw [← h, htemp_w'] at hx
            simp at hx
          · exact T e he'
        · intro e he
          rw [hstaged] at he
          rcases List.mem_cons.1 he with rfl | he'
          · -- the head's target
            have h0 : fsExists w.fs (pathJoin folder new) = false := by
              have : (old, new) ∈ stagedEntries ((old, new) :: rest) := by
                rw [hstaged]; exact List.mem_cons_self _ _
              exact Htgt (old, new) this
            have h1 : pathJoin folder new ≠ temp :=
              fun h => Htne (old, new) hhd (old, new) hhd h.symm
            have h2 : fsExists w₁.fs (pathJoin folder new) = false := by
              rw [hw₁, if_neg h1]
              by_cases h3 : pathJoin folder new = old
              · rw [if_pos h3]
              · rw [if_neg h3]; exact h0
            refine F1 _ h2 ?_
            intro e' he' h
            exact Htne e' (List.mem_cons_of_mem _ (List.mem_filter.1 he').1)
              (old, new) hhd h.symm
          · exact G e he'
      · -- the entry is skipped (already correctly named)
        have hstaged : stagedEntries ((old, new) :: rest) = stagedEntries rest := by
          unfold stagedEntries
          have hst' : (baseName old != new) = false := by
            rw [Bool.not_eq_true] at hst
            exact hst
          simp [List.filter_cons, hst']
        have hstep : stagePhase cfgPure folder ts w ((old, new) :: rest) acc =
            stagePhase cfgPure folder ts w rest acc := by
          conv_lhs => rw [stagePhase]
          rw [if_neg hst]
        obtain ⟨w', heq, F1, F2, T, G⟩ := ih w acc
          (fun e he => Hsrc e (List.mem_cons_of_mem _ he))
          (fun e he => Htf e (List.mem_cons_of_mem _ he))
          hbn.2
          (fun e he => Htgt e (by rw [hstaged]; exact he))
          (fun e he e' he' =>
            Htne e (List.mem_cons_of_mem _ he) e' (List.mem_cons_of_mem _ he'))
        refine ⟨w', ?_, ?_, ?_, ?_, ?_⟩
        · rw [hstep, heq]
          unfold stagedTemps
          rw [hstaged]
        · intro p hp hne
          exact F1 p hp (fun e he => hne e (by rw [hstaged]; exact he))
        · intro p hp hne
          exact F2 p hp (fun e he => hne e (List.mem_cons_of_mem _ he))
        · intro e he
          rw [hstaged] at he
          exact T e he
        · intro e he
          rw [hstaged] at he
          exact G e he

/- The commit phase. -/

theorem commitPhase_ok (folder : String) :
    ∀ (temps : List (String × String)) (w : World)
      (finalsAcc : List (String × String)) (flagsAcc : List Bool),
      (∀ p ∈ temps, fsExists w.fs p.1 = true) →
      (∀ p ∈ temps, fsExists w.fs (pathJoin folder p.2) = false) →
      ((temps.map Prod.fst).Nodup) →
      ((temps.map fun p => pathJoin folder p.2).Nodup) →
      (∀ p ∈ temps, ∀ q ∈ temps, p.1 ≠ pathJoin folder q.2) →
      ∃ w' : World,
        commitPhase cfgPure folder w temps finalsAcc flagsAcc =
          CommitResult.ok w'
            (finalsAcc ++ temps.map (fun p =>
              (pathJoin folder (recoverOriginalName (baseName p.1)), pathJoin folder p.2)))
            (flagsAcc ++ temps.map fun _ => false) := by
  intro temps
  induction temps with
  | nil => intro w fa ga _ _ _ _ _; exact ⟨w, by simp [commitPhase]⟩
  | cons p rest ih =>
      intro w fa ga Hex Htgt Hnod1 Hnod2 Hcross
      obtain ⟨tp, n⟩ := p
      have hhd : (tp, n) ∈ (tp, n) :: rest := List.mem_cons_self _ _
      obtain ⟨v, hlk⟩ := (fsExists_eq_true_iff w.fs tp).1 (Hex (tp, n) hhd)
      have hflag : (fsExists w.fs (pathJoin folder n) && tp != pathJoin folder n) = false := by
        rw [Htgt (tp, n) hhd]
        rfl
      have hos : osRename cfgPure w tp (pathJoin folder n) =
          (⟨fsSet (fsErase w.fs tp) (pathJoin folder n) v, w.clock + 1⟩, some false) := by
        unfold osRename
        rw [if_neg (by simp [cfgPure]), hlk, hflag]
      have hstep : commitPhase cfgPure folder w ((tp, n) :: rest) fa ga =
          commitPhase cfgPure folder
            ⟨fsSet (fsErase w.fs tp) (pathJoin folder n) v, w.clock + 1⟩
            rest
            (fa ++ [(pathJoin folder (recoverOriginalName (baseName tp)), pathJoin folder n)])
            (ga ++ [false]) := by
        conv_lhs => rw [commitPhase]
        rw [hos]
      set w₁ : World := ⟨fsSet (fsErase w.fs tp) (pathJoin folder n) v, w.clock + 1⟩
      have hw₁ : ∀ p, fsExists w₁.fs p =
          if p = pathJoin folder n then true else if p = tp then false else fsExists w.fs p :=
        fun p => fsExists_set_erase w.fs tp (pathJoin folder n) p v
      have hn1 : tp ∉ rest.map Prod.fst ∧ (rest.map Prod.fst).Nodup := by
        simpa [List.nodup_cons] using Hnod1
      have hn2 : pathJoin folder n ∉ rest.map (fun p => pathJoin folder p.2) ∧
          (rest.map fun p => pathJoin folder p.2).Nodup := by
        simpa [List.nodup_cons] using Hnod2
      have Hex' : ∀ q ∈ rest, fsExists w₁.fs q.1 = true := by
        intro q hq
        have h1 : q.1 ≠ tp := fun h => hn1.1 (List.mem_map.2 ⟨q, hq, h⟩)
        rw [hw₁]
        by_cases h2 : q.1 = pathJoin folder n
        · rw [if_pos h2]
        · rw [if_neg h2, if_neg h1]
          exact Hex q (List.mem_cons_of_mem _ hq)
      have Htgt' : ∀ q ∈ rest, fsExists w₁.fs (pathJoin folder q.2) = false := by
        intro q hq
        have h1 : pathJoin folder q.2 ≠ pathJoin folder n := by
          intro h
          exact hn2.1 (List.mem_map.2 ⟨q, hq, h⟩)
        have h2 : pathJoin folder q.2 ≠ tp :=
          fun h => Hcross (tp, n) hhd q (List.mem_cons_of_mem _ hq) h.symm
        rw [hw₁, if_neg h1, if_neg h2]
        exact Htgt q (List.mem_cons_of_mem _ hq)
      have Hcross' : ∀ p ∈ rest, ∀ q ∈ rest, p.1 ≠ pathJoin folder q.2 :=
        fun p hp q hq => Hcross p (List.mem_cons_of_mem _ hp) q (List.mem_cons_of_mem _ hq)
      obtain ⟨w', heq⟩ := ih w₁
        (fa ++ [(pathJoin folder (recoverOriginalName (baseName tp)), pathJoin folder n)])
        (ga ++ [false]) Hex' Htgt' hn1.2 hn2.2 Hcross'
      refine ⟨w', ?_⟩
      rw [hstep, heq]
      simp

/- Facts available when the detector reports no collisions. -/

theorem detect_nil_facts {renames : List (String × String)} {folder : String}
    {fs : List (String × Nat)} (h : detect_collisions renames folder fs = []) :
    (renames.map Prod.snd).Nodup ∧
    ∀ e ∈ renames, fsExists fs (pathJoin folder e.2) = true → pathJoin folder e.2 = e.1 := by
  obtain ⟨h1, _, h3⟩ := detectLoop_nil_facts folder fs renames [] h
  exact ⟨h1, h3⟩

theorem stagedEntries_sublist (renames : List (String × String)) :
    List.Sublist (stagedEntries renames) renames :=
  List.filter_sublist renames

theorem stagedTemps_fst (folder ts : String) (renames : List (String × String)) :
    (stagedTemps folder ts renames).map Prod.fst =
      ((stagedEntries renames).map fun e => baseName e.1).map
        (fun nm => pathJoin folder (tempNameOf ts nm)) := by
  unfold stagedTemps
  rw [List.map_map, List.map_map]
  rfl

theorem stagedTemps_snd_paths (folder ts : String) (renames : List (String × String)) :
    (stagedTemps folder ts renames).map (fun p => pathJoin folder p.2) =
      ((stagedEntries renames).map Prod.snd).map (fun nm => pathJoin folder nm) := by
  unfold stagedTemps
  rw [List.map_map, List.map_map]
  rfl

/-- A fault-free run of the executor on a collision-free plan: staging succeeds
    with exactly the non-no-op entries, and the commit phase succeeds with every
    overwrite report false. -/
theorem executor_run_ok (folder ts : String) (renames : List (String × String)) (w : World)
    (Hdet : detect_collisions renames folder w.fs = [])
    (Hold : ∀ e ∈ renames, e.1 = pathJoin folder (baseName e.1))
    (Hsrc : ∀ e ∈ renames, fsExists w.fs e.1 = true)
    (Hnames : (renames.map fun e => baseName e.1).Nodup)
    (Htf : ∀ e ∈ renames, fsExists w.fs (tempPathOf folder ts e) = false)
    (Htne : ∀ e ∈ renames, ∀ e' ∈ renames, tempPathOf folder ts e ≠ pathJoin folder e'.2) :
    ∃ w₁ w₂ : World,
      stagePhase cfgPure folder ts w renames [] =
        StageResult.ok w₁ (stagedTemps folder ts renames) ∧
      commitPhase cfgPure folder w₁ (stagedTemps folder ts renames) [] [] =
        CommitResult.ok w₂
          ((stagedTemps folder ts renames).map fun p =>
            (pathJoin folder (recoverOriginalName (baseName p.1)), pathJoin folder p.2))
          ((stagedTemps folder ts renames).map fun _ => false) := by
  obtain ⟨htnodup, hown⟩ := detect_nil_facts Hdet
  have Htgt : ∀ e ∈ stagedEntries renames, fsExists w.fs (pathJoin folder e.2) = false := by
    intro e he
    have hmem : e ∈ renames := (List.mem_filter.1 he).1
    have hpred : (baseName e.1 != e.2) = true := (List.mem_filter.1 he).2
    by_contra hc
    have hc' : fsExists w.fs (pathJoin folder e.2) = true := by
      revert hc
      cases fsExists w.fs (pathJoin folder e.2) <;> simp
    have hsrcp := hown e hmem hc'
    rw [Hold e hmem] at hsrcp
    have heq2 := pathJoin_inj hsrcp
    simp [heq2] at hpred
  obtain ⟨w₁, hstage, _, _, T, G⟩ :=
    stagePhase_ok folder ts renames w [] Hsrc Htf Hnames Htgt Htne
  have hbnodup : ((stagedEntries renames).map fun e => baseName e.1).Nodup :=
    List.Nodup.sublist (List.Sublist.map _ (stagedEntries_sublist renames)) Hnames
  have hsnodup : ((stagedEntries renames).map Prod.snd).Nodup :=
    List.Nodup.sublist (List.Sublist.map _ (stagedEntries_sublist renames)) htnodup
  have hNod1 : ((stagedTemps folder ts renames).map Prod.fst).Nodup := by
    rw [stagedTemps_fst]
    exact List.Nodup.map (fun a b h => tempPath_name_inj h) hbnodup
  have hNod2 : ((stagedTemps folder ts renames).map fun p => pathJoin folder p.2).Nodup := by
    rw [stagedTemps_snd_paths]
    exact List.Nodup.map (fun a b h => pathJoin_inj h) hsnodup
  have hmem_temps : ∀ p ∈ stagedTemps folder ts renames,
      ∃ e ∈ stagedEntries renames, p = (tempPathOf folder ts e, e.2) := by
    intro p hp
    obtain ⟨e, he, hpe⟩ := List.mem_map.1 hp
    exact ⟨e, he, hpe.symm⟩
  have hex : ∀ p ∈ stagedTemps folder ts renames, fsExists w₁.fs p.1 = true := by
    intro p hp
    obtain ⟨e, he, rfl⟩ := hmem_temps p hp
    exact T e he
  have htg : ∀ p ∈ stagedTemps folder ts renames,
      fsExists w₁.fs (pathJoin folder p.2) = false := by
    intro p hp
    obtain ⟨e, he, rfl⟩ := hmem_temps p hp
    exact G e he
  have hcross : ∀ p ∈ stagedTemps folder ts renames, ∀ q ∈ stagedTemps folder ts renames,
      p.1 ≠ pathJoin folder q.2 := by
    intro p hp q hq
    obtain ⟨e, he, rfl⟩ := hmem_temps p hp
    obtain ⟨e', he', rfl⟩ := hmem_temps q hq
    exact Htne e (List.mem_filter.1 he).1 e' (List.mem_filter.1 he').1
  obtain ⟨w₂, hcommit⟩ := commitPhase_ok folder (stagedTemps folder ts renames) w₁ [] []
    hex htg hNod1 hNod2 hcross
  exact ⟨w₁, w₂, hstage, by simpa using hcommit⟩

/-- C4: on a plan the detector passes (no collisions), with files listed from
    the folder (paths are `folder/name`), distinct filenames, sources present
    on disk and fresh temporary names, no rename of the commit phase ever
    overwrites an existing file other than its own staged temporary: every
    overwrite report of the commit phase is false.  With no collisions, a final
    target may coincide only with its own entry's original name (a no-op, never
    committed), so this holds even when target and original name sets overlap. -/
theorem c4_commit_no_overwrite :
    ∀ (folder ts : String) (renames : List (String × String)) (w : World),
      detect_collisions renames folder w.fs = [] →
      (∀ e ∈ renames, e.1 = pathJoin folder (baseName e.1)) →
      (∀ e ∈ renames, fsExists w.fs e.1 = true) →
      ((renames.map fun e => baseName e.1).Nodup) →
      (∀ e ∈ renames, fsExists w.fs (tempPathOf folder ts e) = false) →
      (∀ e ∈ renames, ∀ e' ∈ renames, tempPathOf folder ts e ≠ pathJoin folder e'.2) →
      ∃ (w₁ w₂ : World) (finals : List (String × String)),
        stagePhase cfgPure folder ts w renames [] =
          StageResult.ok w₁ (stagedTemps folder ts renames) ∧
        commitPhase cfgPure folder w₁ (stagedTemps folder ts renames) [] [] =
          CommitResult.ok w₂ finals ((stagedTemps folder ts renames).map fun _ => false) := by
  intro folder ts renames w h1 h2 h3 h4 h5 h6
  obtain ⟨w₁, w₂, hs, hc⟩ := executor_run_ok folder ts renames w h1 h2 h3 h4 h5 h6
  exact ⟨w₁, w₂, _, hs, hc⟩

/-- Witness for C4: a renumbering whose first entry is a no-op on its own name. -/
theorem c4_commit_no_overwrite_witness :
    ∃ (w₁ w₂ : World) (finals : List (String × String)),
      stagePhase cfgPure "d" "20240101_120000_123456" ⟨[("d/f_1.png", 0), ("d/x.png", 1)], 0⟩
        [("d/f_1.png", "f_1.png"), ("d/x.png", "f_2.png")] [] =
        StageResult.ok w₁ (stagedTemps "d" "20240101_120000_123456"
          [("d/f_1.png", "f_1.png"), ("d/x.png", "f_2.png")]) ∧
      commitPhase cfgPure "d" w₁ (stagedTemps "d" "20240101_120000_123456"
          [("d/f_1.png", "f_1.png"), ("d/x.png", "f_2.png")]) [] [] =
        CommitResult.ok w₂ finals
          ((stagedTemps "d" "20240101_120000_123456"
            [("d/f_1.png", "f_1.png"), ("d/x.png", "f_2.png")]).map fun _ => false) :=
  c4_commit_no_overwrite "d" "20240101_120000_123456"
    [("d/f_1.png", "f_1.png"), ("d/x.png", "f_2.png")] ⟨[("d/f_1.png", 0), ("d/x.png", 1)], 0⟩
    (by decide) (by decide) (by decide) (by decide) (by decide) (by decide)

/-- C3 counterexample: a plan whose single entry is already correctly named
    yields an empty result — the no-op entry produces no `CompletedRename` at
    all, so execute does not return one record per plan entry. -/
theorem c3_counterexample :
    two_phase_rename cfgPure "d" "20240101_120000_123456" [("d/a.png", "a.png")]
      ⟨[("d/a.png", 0)], 0⟩ = (⟨[("d/a.png", 0)], 0⟩, some []) ∧
    ([] : List (String × String)).length ≠ [("d/a.png", "a.png")].length := by
  exact ⟨by decide, by decide⟩

/-- C3 (amended): a fault-free execution of a collision-free plan returns one
    `CompletedRename` per entry whose current filename differs from its target,
    in plan order; entries already bearing their target name are skipped
    entirely and contribute no record (in particular the result's final paths
    are exactly the staged entries' targets, in order). -/
theorem c3_execute_result :
    ∀ (folder ts : String) (renames : List (String × String)) (w : World),
      detect_collisions renames folder w.fs = [] →
      (∀ e ∈ renames, e.1 = pathJoin folder (baseName e.1)) →
      (∀ e ∈ renames, fsExists w.fs e.1 = true) →
      ((renames.map fun e => baseName e.1).Nodup) →
      (∀ e ∈ renames, fsExists w.fs (tempPathOf folder ts e) = false) →
      (∀ e ∈ renames, ∀ e' ∈ renames, tempPathOf folder ts e ≠ pathJoin folder e'.2) →
      ∃ w₂ : World,
        two_phase_rename cfgPure folder ts renames w =
          (w₂, some ((stagedTemps folder ts renames).map fun p =>
            (pathJoin folder (recoverOriginalName (baseName p.1)), pathJoin folder p.2))) ∧
        ((stagedTemps folder ts renames).map fun p =>
          (pathJoin folder (recoverOriginalName (baseName p.1)), pathJoin folder p.2)).length =
          (stagedEntries renames).length ∧
        (((stagedTemps folder ts renames).map fun p =>
          (pathJoin folder (recoverOriginalName (baseName p.1)), pathJoin folder p.2)).map
            Prod.snd) =
          (stagedEntries renames).map (fun e => pathJoin folder e.2) := by
  intro folder ts renames w h1 h2 h3 h4 h5 h6
  obtain ⟨w₁, w₂, hs, hc⟩ := executor_run_ok folder ts renames w h1 h2 h3 h4 h5 h6
  refine ⟨w₂, ?_, ?_, ?_⟩
  · unfold two_phase_rename
    simp only [hs, hc]
  · simp [stagedTemps]
  · simp [stagedTemps, List.map_map]

/-- Witness for C3 at a concrete collision-free plan. -/
theorem c3_execute_result_witness :
    ((two_phase_rename cfgPure "d" "20240101_120000_123456"
      [("d/f_1.png", "f_1.png"), ("d/x.png", "f_2.png")]
      ⟨[("d/f_1.png", 0), ("d/x.png", 1)], 0⟩).2).isSome = true := by
  obtain ⟨w₂, heq, -, -⟩ := c3_execute_result "d" "20240101_120000_123456"
    [("d/f_1.png", "f_1.png"), ("d/x.png", "f_2.png")] ⟨[("d/f_1.png", 0), ("d/x.png", 1)], 0⟩
    (by decide) (by decide) (by decide) (by decide) (by decide) (by decide)
  rw [heq]
  rfl

/-- C1 (code bug): the concrete round trip `undo(write(execute(plan)))` does
    not restore the file to its original path.  The staging name
    `temp_20240101_120000_123456_a.png` is split with `split('_', 3)`, whose
    last piece is `123456_a.png` — the microseconds field stays glued to the
    original name — so the recorded original path is `d/123456_a.png`, the
    ledger stores it, and undo renames the file there instead of `d/a.png`.
    The ledger itself is deleted as specified. -/
theorem c1_roundtrip_misrestores :
    two_phase_rename cfgPure "d" "20240101_120000_123456" [("d/a.png", "b_1.png")]
        ⟨[("d/a.png", 0)], 0⟩ =
      (⟨[("d/b_1.png", 0)], 2⟩, some [("d/123456_a.png", "d/b_1.png")]) ∧
    write_log [("d/123456_a.png", "d/b_1.png")] "t0" =
      [("d/123456_a.png", "d/b_1.png", "t0")] ∧
    undo_from_log cfgPure ⟨[("d/b_1.png", 0)], 2⟩
        (some [("d/123456_a.png", "d/b_1.png", "t0")]) =
      (⟨[("d/123456_a.png", 0)], 3⟩, none, some [("d/b_1.png", "d/123456_a.png")]) ∧
    fsLookup [("d/123456_a.png", 0)] "d/a.png" = none := by
  exact ⟨by decide, by decide, by decide, by decide⟩

/-- C2 (code bug): forcing the second staging rename to fail (fault at
    operation 1) leaves one staged file; the rollback handler reconstructs the
    original name with `split('_', 3)`, which keeps the microseconds field, so
    the staged file ends at `d/123456_a.png` rather than back at its original
    path `d/a.png`. -/
theorem c2_rollback_misrestores :
    two_phase_rename ⟨fun n => n == 1⟩ "d" "20240101_120000_123456"
        [("d/a.png", "x_1.png"), ("d/b.png", "x_2.png")]
        ⟨[("d/a.png", 0), ("d/b.png", 1)], 0⟩ =
      (⟨[("d/123456_a.png", 0), ("d/b.png", 1)], 3⟩, none) ∧
    fsLookup [("d/123456_a.png", 0), ("d/b.png", 1)] "d/a.png" = none := by
  exact ⟨by decide, by decide⟩

/- The undo pass. -/

theorem undoGo_trace (cfg : FaultConfig) :
    ∀ (rows : List LogRow) (w w' : World) (l : List (String × String)),
      undoGo cfg w rows = Except.ok (w', l) → UndoTrace w.fs rows l w'.fs := by
  intro rows
  induction rows with
  | nil =>
      intro w w' l h
      simp only [undoGo, Except.ok.injEq, Prod.mk.injEq] at h
      obtain ⟨rfl, rfl⟩ := h
      exact UndoTrace.nil _
  | cons r rest ih =>
      intro w w' l h
      obtain ⟨old, new, ts⟩ := r
      rw [undoGo] at h
      by_cases hex : fsExists w.fs new = true
      · rw [if_pos hex] at h
        cases hos : osRename cfg w new old with
        | mk w₁ ob =>
            cases ob with
            | none =>
                simp only [hos] at h
                exact absurd h (by simp)
            | some flag =>
                simp only [hos] at h
                cases hrec : undoGo cfg w₁ rest with
                | error w₂ =>
                    simp only [hrec] at h
                    exact absurd h (by simp)
                | ok p =>
                    obtain ⟨w₂, l₂⟩ := p
                    simp only [hrec, Except.ok.injEq, Prod.mk.injEq] at h
                    obtain ⟨rfl, rfl⟩ := h
                    unfold osRename at hos
                    by_cases hf : cfg.faults w.clock = true
                    · rw [if_pos hf] at hos
                      simp at hos
                    · rw [if_neg hf] at hos
                      cases hlk : fsLookup w.fs new with
                      | none =>
                          rw [hlk] at hos
                          simp at hos
                      | some v =>
                          rw [hlk] at hos
                          simp only [Prod.mk.injEq] at hos
                          obtain ⟨hw₁, -⟩ := hos
                          refine UndoTrace.step old new ts v hlk ?_
                          have htr := ih w₁ w₂ l₂ hrec
                          rw [← hw₁] at htr
                          exact htr
      · rw [if_neg hex] at h
        refine UndoTrace.skip old new ts ?_ (ih w w' l h)
        revert hex
        cases fsExists w.fs new <;> simp

/-- C10: whenever `undo_from_log` succeeds, the ledger file has been deleted
    and the returned list is exactly the trace of processing every ledger row
    in file order — rows whose final path exists are renamed back and recorded
    as `(finalPath, originalPath)`, rows whose final path is missing are
    skipped and excluded; whenever any rename-back fails, the ledger file is
    left in place. -/
theorem c10_undo_contract :
    (∀ (cfg : FaultConfig) (w : World) (rows : List LogRow) (w' : World)
        (led : Option (List LogRow)) (undone : List (String × String)),
        undo_from_log cfg w (some rows) = (w', led, some undone) →
        led = none ∧ UndoTrace w.fs rows undone w'.fs) ∧
    (∀ (cfg : FaultConfig) (w : World) (rows : List LogRow) (w' : World)
        (led : Option (List LogRow)),
        undo_from_log cfg w (some rows) = (w', led, none) → led = some rows) := by
  constructor
  · intro cfg w rows w' led undone h
    unfold undo_from_log at h
    cases hgo : undoGo cfg w rows with
    | error w₂ =>
        simp only [hgo, Prod.mk.injEq] at h
        exact absurd h.2.2 (by simp)
    | ok p =>
        obtain ⟨w₂, l₂⟩ := p
        simp only [hgo, Prod.mk.injEq, Option.some.injEq] at h
        obtain ⟨rfl, rfl, rfl⟩ := h
        exact ⟨rfl, undoGo_trace cfg rows w w₂ l₂ hgo⟩
  · intro cfg w rows w' led h
    unfold undo_from_log at h
    cases hgo : undoGo cfg w rows with
    | error w₂ =>
        simp only [hgo, Prod.mk.injEq] at h
        exact h.2.1.symm ▸ rfl
    | ok p =>
        obtain ⟨w₂, l₂⟩ := p
        simp only [hgo, Prod.mk.injEq] at h
        exact absurd h.2.2 (by simp)

/-- Witness for C10 at a concrete one-row ledger. -/
theorem c10_undo_contract_witness :
    UndoTrace [("d/b.png", 0)] [("d/a.png", "d/b.png", "t")] [("d/b.png", "d/a.png")]
      [("d/a.png", 0)] :=
  (c10_undo_contract.1 cfgPure ⟨[("d/b.png", 0)], 0⟩ [("d/a.png", "d/b.png", "t")]
    ⟨[("d/a.png", 0)], 1⟩ none [("d/b.png", "d/a.png")] (by decide)).2
